import Mathlib

/-!
Verification of the search-result highlighter and cropper
(`crates/milli/src/search/new/matches/`).

The development shallowly embeds the Rust source:

* strings are `List Char`; UTF-8 byte lengths are computed with `Char.utf8Size`;
* machine-integer arithmetic that can wrap in the source is modelled with
  explicit wrapping helpers: `usub`/`u16sub`/`toI16` at the sites where the
  source subtracts or casts `usize`/`u16` values, and `i16wrap`/`i16add`/
  `i16sub` for the `i16` score accumulators of `get_score`, which wrap in
  Rust release mode;
* Rust iterators are lists, and the speculative phrase cursor is the list tail;
* `sort_unstable_by` (a comparison sort whose order on equal keys is
  unspecified) is modelled by `List.insertionSort` on the same key, one
  admissible refinement of it.

Definitions named after source items are direct translations of the source.
Items of this repository that are not in the excerpt (the `match.rs` accessor
methods, the `adjust_indexes` and `best_match_range` modules) are modelled
from the specification and say so in their doc comments.
-/

namespace Milli

/-- UTF-8 byte length of a sequence of characters. -/
def utf8Len (s : List Char) : Nat := (s.map Char.utf8Size).sum

/-- Wrapping 64-bit subtraction: Rust release-mode `usize` subtraction for
operands below `2 ^ 64`. -/
def usub (a b : Nat) : Nat := (2 ^ 64 + a - b) % 2 ^ 64

/-- Wrapping 16-bit subtraction: Rust release-mode `u16` subtraction for
operands below `2 ^ 16`. -/
def u16sub (a b : Nat) : Nat := (2 ^ 16 + a - b) % 2 ^ 16

/-- Reinterpretation of the low 16 bits of a natural number as a signed
16-bit value: the Rust cast `as i16`. -/
def toI16 (n : Nat) : Int :=
  if n % 2 ^ 16 < 2 ^ 15 then ((n % 2 ^ 16 : Nat) : Int)
  else ((n % 2 ^ 16 : Nat) : Int) - 2 ^ 16

/-- Wrap an integer into the signed 16-bit range `[-2 ^ 15, 2 ^ 15)`: the
result of a Rust release-mode `i16` operation. -/
def i16wrap (n : Int) : Int := (n + 2 ^ 15) % 2 ^ 16 - 2 ^ 15

/-- Rust release-mode `i16` addition (wrapping). -/
def i16add (a b : Int) : Int := i16wrap (a + b)

/-- Rust release-mode `i16` subtraction (wrapping). -/
def i16sub (a b : Int) : Int := i16wrap (a - b)

/-- Token produced by the external tokenizer (charabia). The normalized
form is called `lemma` in the source; `lem` here because `lemma` is a
declaration keyword. `byte_end` and `char_end` are exclusive. -/
structure Token where
  lem : List Char
  byte_start : Nat
  byte_end : Nat
  char_start : Nat
  char_end : Nat
  is_separator : Bool
  is_stopword : Bool
  deriving DecidableEq, Repr, Inhabited

/-- Source struct `TokenPositionHelper`: a token together with its token
index and word index. -/
structure TPH where
  token : Token
  position_by_word : Nat
  position_by_token : Nat
  deriving DecidableEq, Repr, Inhabited

/-- Source fn `TokenPositionHelper::iter_from_tokens`: scan the token list
assigning every token its token position and word position (the token
position increments on every token, the word position only on
non-separators), then filter the separators out. -/
def mkStream : List Token → Nat → Nat → List TPH
  | [], _, _ => []
  | t :: ts, tp, wp =>
    let rest := mkStream ts (tp + 1) (if t.is_separator then wp else wp + 1)
    if t.is_separator then rest else ⟨t, wp, tp⟩ :: rest

/-- Position payload of a match: either a single word or a phrase with its
inclusive word- and token-position ranges (source enum `MatchPosition` of
`match.rs`, reconstructed from its uses in `matching_words.rs` and
`match_bounds.rs`). -/
inductive MatchPosition where
  | word (word_position token_position : Nat)
  | phrase (word_position_range token_position_range : Nat × Nat)
  deriving DecidableEq, Repr, Inhabited

/-- Source struct `Match`: an identified span over the token sequence.
`qpos` is `query_position_range`. -/
structure Match where
  char_count : Nat
  byte_len : Nat
  pos : MatchPosition
  qpos : Nat × Nat
  deriving DecidableEq, Repr, Inhabited

/-- Modelled from the spec: accessor `get_first_word_pos` of the absent
`match.rs` (the first word index of the match). -/
def Match.firstWordPos : Match → Nat
  | ⟨_, _, .word wp _, _⟩ => wp
  | ⟨_, _, .phrase (fwp, _) _, _⟩ => fwp

/-- Modelled from the spec: accessor `get_last_word_pos` of the absent
`match.rs` (the last word index of the match). -/
def Match.lastWordPos : Match → Nat
  | ⟨_, _, .word wp _, _⟩ => wp
  | ⟨_, _, .phrase (_, lwp) _, _⟩ => lwp

/-- Modelled from the spec: accessor `get_first_token_pos` of the absent
`match.rs`. -/
def Match.firstTokenPos : Match → Nat
  | ⟨_, _, .word _ tp, _⟩ => tp
  | ⟨_, _, .phrase _ (ftp, _), _⟩ => ftp

/-- Modelled from the spec: accessor `get_last_token_pos` of the absent
`match.rs`. -/
def Match.lastTokenPos : Match → Nat
  | ⟨_, _, .word _ tp, _⟩ => tp
  | ⟨_, _, .phrase _ (_, ltp), _⟩ => ltp

/-- Modelled from the spec: accessor `get_word_count` of the absent
`match.rs`; a word match spans one word, a phrase match spans
`lwp - fwp + 1` words (spec invariant 3). -/
def Match.wordCount : Match → Nat
  | ⟨_, _, .word _ _, _⟩ => 1
  | ⟨_, _, .phrase (fwp, lwp) _, _⟩ => lwp - fwp + 1

/-- Source struct `LocatedMatchingWords` with the interned strings resolved:
a set of derivation words, the query-position range, the `is_prefix` flag
(field `pfx` here) and `original_char_count` (field `origCc`). -/
structure LocatedWords where
  value : List (List Char)
  position : Nat × Nat
  pfx : Bool
  origCc : Nat
  deriving DecidableEq, Repr

/-- Source struct `LocatedMatchingPhrase` with the phrase resolved: the slot
list (a `none` slot is a stop-word placeholder) and the query-position
range. -/
structure LocatedPhrase where
  words : List (Option (List Char))
  position : Nat × Nat
  deriving DecidableEq, Repr

/-- Source struct `MatchingWords` with both interners resolved away. -/
structure MatchingWords where
  phrases : List LocatedPhrase
  words : List LocatedWords
  deriving Repr

/-- Rust `str::char_indices().nth n`: the byte offset and identity of the
`n`-th character of a string. -/
def charIndicesNth : List Char → Nat → Option (Nat × Char)
  | [], _ => none
  | c :: _, 0 => some (0, c)
  | c :: cs, n + 1 => (charIndicesNth cs n).map fun p => (c.utf8Size + p.1, p.2)

/-- Step of `try_get_word_match` computing the highlighted byte length of a
prefix entry: `word.char_indices().nth(original_char_count - 1)` mapped to
`char_index + c.len_utf8()`.  In the source `original_char_count - 1` is a
`usize` subtraction, so `original_char_count = 0` wraps to `2 ^ 64 - 1` and
`nth` returns `None`; the `occ = 0` guard models that. -/
def pfxByteLen (w : List Char) (occ : Nat) : Option Nat :=
  if occ = 0 then none
  else (charIndicesNth w (occ - 1)).map fun p => p.1 + p.2.utf8Size

/-- Flattened candidate list of `try_get_word_match`:
`located_matching_words.iter().flat_map(|lw| lw.value.iter().map(move |w| (lw, w)))`. -/
def wordCands (lws : List LocatedWords) : List (LocatedWords × List Char) :=
  lws.flatMap fun lw => lw.value.map fun w => (lw, w)

/-- Source fn `try_get_word_match`, recursion over the flattened candidate
list.  A prefix entry whose word starts the token's lemma matches with
`char_count = original_char_count` and the byte length of that character
count of the entry word, or is skipped when the entry word is shorter than
`original_char_count`; otherwise an exact entry equal to the lemma matches
with the token's char and byte extents, each plus one as written in the
source. -/
def tryWordCands (tph : TPH) : List (LocatedWords × List Char) → Option Match
  | [] => none
  | (lw, w) :: rest =>
    if lw.pfx && w.isPrefixOf tph.token.lem then
      match pfxByteLen w lw.origCc with
      | none => tryWordCands tph rest
      | some bl =>
        some { char_count := lw.origCc
             , byte_len := bl
             , pos := .word tph.position_by_word tph.position_by_token
             , qpos := lw.position }
    else if tph.token.lem = w then
      some { char_count := tph.token.char_end - tph.token.char_start + 1
           , byte_len := tph.token.byte_end - tph.token.byte_start + 1
           , pos := .word tph.position_by_word tph.position_by_token
           , qpos := lw.position }
    else tryWordCands tph rest

/-- Source fn `try_get_word_match` applied to a `MatchingWords` word table. -/
def try_get_word_match (lws : List LocatedWords) (tph : TPH) : Option Match :=
  tryWordCands tph (wordCands lws)

/-- Slot match test of `try_get_phrase_match` step 3: a `some` slot requires
lemma equality, a `none` slot requires the token to be a stop word. -/
def slotMatches : Option (List Char) → TPH → Bool
  | some w, t => t.token.lem = w
  | none, t => t.token.is_stopword

/-- Inner loop of `try_get_phrase_match`: consume phrase slots against
successive stream elements; on full success return the last consumed
element and the remaining stream.  An empty slot list never matches (the
source pulls a slot before testing anything), and exhausting the stream
mid-phrase fails. -/
def matchSlots : List (Option (List Char)) → List TPH → Option (TPH × List TPH)
  | [], _ => none
  | _ :: _, [] => none
  | s :: ss, t :: ts =>
    if slotMatches s t then
      match ss with
      | [] => some (t, ts)
      | _ :: _ => matchSlots ss ts
    else none

/-- Source fn `try_get_phrase_match`: try each located phrase in order
against a clone of the cursor; on success build the phrase `Match` (byte
length and char count each computed with the extra `+ 1` written in the
source) and commit the advanced cursor. -/
def try_get_phrase_match : List LocatedPhrase → List TPH → Option (Match × List TPH)
  | [], _ => none
  | lp :: lps, stream =>
    match matchSlots lp.words stream with
    | some (last, rest) =>
      match stream with
      | first :: _ =>
        some ({ char_count := last.token.char_end - first.token.char_start + 1
              , byte_len := last.token.byte_end - first.token.byte_start + 1
              , pos := .phrase (first.position_by_word, last.position_by_word)
                               (first.position_by_token, last.position_by_token)
              , qpos := lp.position }, rest)
      | [] => try_get_phrase_match lps stream
    | none => try_get_phrase_match lps stream

theorem matchSlots_length_lt :
    ∀ (ss : List (Option (List Char))) (st : List TPH) (l : TPH) (rest : List TPH),
      matchSlots ss st = some (l, rest) → rest.length < st.length := by
  intro ss
  induction ss with
  | nil => intro st l rest h; simp [matchSlots] at h
  | cons s ss ih =>
    intro st l rest h
    cases st with
    | nil => simp [matchSlots] at h
    | cons t ts =>
      simp only [matchSlots] at h
      cases hc : slotMatches s t with
      | false => simp [hc] at h
      | true =>
        simp only [hc, if_true] at h
        cases ss with
        | nil =>
          simp only [Option.some.injEq, Prod.mk.injEq] at h
          simp [← h.2]
        | cons s2 ss2 =>
          have := ih ts l rest h
          simpa using Nat.lt_succ_of_lt this

theorem try_get_phrase_match_length_lt :
    ∀ (lps : List LocatedPhrase) (st : List TPH) (m : Match) (rest : List TPH),
      try_get_phrase_match lps st = some (m, rest) → rest.length < st.length := by
  intro lps
  induction lps with
  | nil => intro st m rest h; simp [try_get_phrase_match] at h
  | cons lp lps ih =>
    intro st m rest h
    simp only [try_get_phrase_match] at h
    cases hms : matchSlots lp.words st with
    | none =>
      rw [hms] at h
      exact ih st m rest h
    | some p =>
      obtain ⟨last, rest2⟩ := p
      rw [hms] at h
      cases st with
      | nil => exact ih [] m rest h
      | cons first tail =>
        simp only [Option.some.injEq, Prod.mk.injEq] at h
        have := matchSlots_length_lt lp.words (first :: tail) last rest2 hms
        rw [h.2] at this
        exact this

/-- Main loop of `get_matches`, fuel-indexed: try a phrase match at the
cursor and commit it on success, otherwise advance the cursor by one
(non-separator) token and try a word match there; stop when the cursor is
exhausted.  The source loop terminates because every iteration consumes at
least one stream element (`try_get_phrase_match_length_lt`); the fuel
makes that argument structural, and `getMatchesLoop` instantiates the fuel
with the stream length, which is always sufficient. -/
def getMatchesStep (mw : MatchingWords) (recur : List TPH → List Match)
    (stream : List TPH) : List Match :=
  match try_get_phrase_match mw.phrases stream with
  | some (m, rest) => m :: recur rest
  | none =>
    match stream with
    | [] => []
    | tph :: rest =>
      match tryWordCands tph (wordCands mw.words) with
      | some m => m :: recur rest
      | none => recur rest

def getMatchesAux (mw : MatchingWords) : Nat → List TPH → List Match
  | 0, _ => []
  | fuel + 1, stream => getMatchesStep mw (getMatchesAux mw fuel) stream

/-- Main loop of `get_matches` at its always-sufficient fuel. -/
def getMatchesLoop (mw : MatchingWords) (stream : List TPH) : List Match :=
  getMatchesAux mw stream.length stream

/-- Source fn `get_matches`: run the match loop over the position-annotated
non-separator token stream, then sort the result by
`query_position_range[0]` (the source uses `sort_unstable_by`, a comparison
sort whose order on equal keys is unspecified; `insertionSort` on the same
key refines it). -/
def get_matches (mw : MatchingWords) (tokens : List Token) : List Match :=
  List.insertionSort (fun a b => a.qpos.1 ≤ b.qpos.1)
    (getMatchesLoop mw (mkStream tokens 0 0))

theorem utf8Len_append (a b : List Char) : utf8Len (a ++ b) = utf8Len a + utf8Len b := by
  simp [utf8Len]

theorem charIndicesNth_spec (w : List Char) (n : Nat) (h : n < w.length) :
    charIndicesNth w n = some (utf8Len (w.take n), w.get ⟨n, h⟩) := by
  induction w generalizing n with
  | nil => simp at h
  | cons c cs ih =>
    cases n with
    | zero => simp [charIndicesNth, utf8Len]
    | succ n =>
      have h2 : n < cs.length := by simpa using h
      simp [charIndicesNth, ih n h2, utf8Len]

theorem charIndicesNth_none (w : List Char) (n : Nat) (h : w.length ≤ n) :
    charIndicesNth w n = none := by
  induction w generalizing n with
  | nil => simp [charIndicesNth]
  | cons c cs ih =>
    cases n with
    | zero => simp at h
    | succ n => simp [charIndicesNth, ih n (by simpa using h)]

theorem utf8Len_take_succ (w : List Char) (n : Nat) (h : n < w.length) :
    utf8Len (w.take (n + 1)) = utf8Len (w.take n) + (w.get ⟨n, h⟩).utf8Size := by
  have htake : w.take (n + 1) = w.take n ++ [w.get ⟨n, h⟩] := by
    rw [List.take_succ]
    simp [List.getElem?_eq_getElem h, List.get_eq_getElem]
  rw [htake, utf8Len_append]
  simp [utf8Len]

theorem pfxByteLen_eq (w : List Char) (occ : Nat) (h1 : 1 ≤ occ) (h2 : occ ≤ w.length) :
    pfxByteLen w occ = some (utf8Len (w.take occ)) := by
  obtain ⟨k, rfl⟩ : ∃ k, occ = k + 1 := ⟨occ - 1, by omega⟩
  have h3 : k < w.length := by omega
  rw [pfxByteLen, if_neg (by omega)]
  simp only [Nat.add_sub_cancel, charIndicesNth_spec w k h3]
  rw [utf8Len_take_succ w k h3]
  rfl

theorem pfxByteLen_none (w : List Char) (occ : Nat) (h : w.length < occ) :
    pfxByteLen w occ = none := by
  rw [pfxByteLen]
  by_cases h0 : occ = 0
  · simp [h0]
  · rw [if_neg h0, charIndicesNth_none w (occ - 1) (by omega)]
    rfl

theorem pfxByteLen_inv (w : List Char) (occ : Nat) (bl : Nat) (h : pfxByteLen w occ = some bl) :
    1 ≤ occ ∧ occ ≤ w.length ∧ bl = utf8Len (w.take occ) := by
  by_cases h0 : occ = 0
  · rw [pfxByteLen, if_pos h0] at h
    exact absurd h (by simp)
  · by_cases hl : occ ≤ w.length
    · rw [pfxByteLen_eq w occ (by omega) hl] at h
      refine ⟨by omega, hl, ?_⟩
      injection h with h
      omega
    · rw [pfxByteLen_none w occ (by omega)] at h
      exact absurd h (by simp)

/-! Claim C1.  The spec and the claim state that `byte_len` is the byte
extent of the matched span (`last.byte_end - first.byte_start` for a
phrase, `token.byte_end - token.byte_start` for an exact word match).  The
source adds one to both quantities (`matching_words.rs` lines 184 and
218-219), contradicting the repository's own test (`matching_words`
expects `byte_len = 5` for the token `split` with `byte_start = 0`,
`byte_end = 5`) and the snapshot tests of `matches.rs`, whose expected
highlight spans do not include the extra byte. -/

def c1Tok : Token := ⟨['s', 'p', 'l', 'i', 't'], 0, 5, 0, 5, false, false⟩

def c1Lw : LocatedWords := ⟨[['s', 'p', 'l', 'i', 't']], (0, 0), false, 5⟩

def c1TokA : Token := ⟨['a'], 0, 1, 0, 1, false, false⟩

def c1Sep : Token := ⟨[','], 1, 2, 1, 2, true, false⟩

def c1TokB : Token := ⟨['b'], 2, 3, 2, 3, false, false⟩

def c1Phrase : LocatedPhrase := ⟨[some ['a'], some ['b']], (0, 1)⟩

/-- C1: the match finder emits `byte_len` equal to the byte extent plus one,
not the byte extent.  At the exact single-word match of the token `split`
(bytes 0 to 5) the emitted `byte_len` is 6 while the token's byte extent is
5, and at the phrase match of `a b` (first token bytes 0 to 1, last token
bytes 2 to 3) the emitted `byte_len` is 4 while
`last.byte_end - first.byte_start` is 3. -/
theorem c1_byte_len_is_extent_plus_one :
    ((tryWordCands ⟨c1Tok, 0, 0⟩ (wordCands [c1Lw])).map Match.byte_len = some 6
      ∧ c1Tok.byte_end - c1Tok.byte_start = 5)
    ∧ ((try_get_phrase_match [c1Phrase] (mkStream [c1TokA, c1Sep, c1TokB] 0 0)).map
          (fun p => p.1.byte_len) = some 4
      ∧ c1TokB.byte_end - c1TokA.byte_start = 3)
    ∧ (6 : Nat) ≠ 5 ∧ (4 : Nat) ≠ 3 := by
  decide

/-! Claim C2.  The claim states that for a prefix-term match the
highlighted span is the first `original_char_count` characters of the token
as it appears in the source text.  The source computes the byte length from
the character prefix of the matched entry word (equivalently, of the
token's lemma, of which the entry is a byte prefix), not from the token's
surface form in the source text; the two differ whenever normalization
changes byte lengths. -/

/-- Byte length of the first `occ` characters of a token as it appears in
the source text: the token's appearance is the character slice
`[char_start, char_end)` of the text.  This is the quantity claim C2
asserts `byte_len` equals. -/
def sourcePfxByteLen (text : List Char) (tok : Token) (occ : Nat) : Nat :=
  utf8Len (((text.drop tok.char_start).take (tok.char_end - tok.char_start)).take occ)

def c2Text : List Char := ['Ŵ', 'ô', 'ř', 'l', 'ḑ', 'ô', 'l', 'e']

def c2Tok : Token := ⟨['w', 'o', 'r', 'l', 'd', 'o', 'l', 'e'], 0, 14, 0, 8, false, false⟩

def c2Lw : LocatedWords := ⟨[['w', 'o', 'r', 'l', 'd']], (0, 0), true, 5⟩

/-- C2 counterexample: for the source text `Ŵôřlḑôle` tokenized to the
normalized lemma `worldole` (bytes 0 to 14, chars 0 to 8) and the prefix
entry `world` with `original_char_count = 5`, the match finder emits
`byte_len = 5` (the byte length of the entry's 5-character prefix), while
the byte length of the first 5 characters of the token as it appears in
the source text (`Ŵôřlḑ`) is 10. -/
theorem c2_counterexample :
    (tryWordCands ⟨c2Tok, 0, 0⟩ (wordCands [c2Lw])).map Match.byte_len = some 5
    ∧ sourcePfxByteLen c2Text c2Tok 5 = 10
    ∧ (5 : Nat) ≠ 10 := by
  decide

/-- C2 amended: when every candidate entry is a prefix entry, a match
produced by single-word matching highlights `original_char_count`
characters (`char_count = original_char_count`) and its `byte_len` is the
UTF-8 byte length of the first `original_char_count` characters of the
matched entry word — not of the token's surface form in the source text.
The matched entry is a prefix of the token's lemma and has at least
`original_char_count` characters. -/
theorem c2_amended_pfx_match_byte_len :
    ∀ (cs : List (LocatedWords × List Char)) (tph : TPH) (m : Match),
      (∀ c ∈ cs, c.1.pfx = true) → tryWordCands tph cs = some m →
      ∃ c ∈ cs, c.2.isPrefixOf tph.token.lem = true
        ∧ 1 ≤ c.1.origCc ∧ c.1.origCc ≤ c.2.length
        ∧ m.char_count = c.1.origCc
        ∧ m.byte_len = utf8Len (c.2.take c.1.origCc) := by
  intro cs
  induction cs with
  | nil => intro tph m hall h; simp [tryWordCands] at h
  | cons c cs ih =>
    intro tph m hall h
    obtain ⟨lw, w⟩ := c
    have hp : lw.pfx = true := hall (lw, w) (by simp)
    simp only [tryWordCands, hp, Bool.true_and] at h
    split at h
    · next hpre =>
      split at h
      · next hbl =>
        obtain ⟨d, hd, hrest⟩ := ih tph m (fun x hx => hall x (by simp [hx])) h
        exact ⟨d, by simp [hd], hrest⟩
      · next bl hbl =>
        obtain ⟨h1, h2, h3⟩ := pfxByteLen_inv w lw.origCc bl hbl
        injection h with h
        refine ⟨(lw, w), by simp, hpre, h1, h2, ?_, ?_⟩
        · rw [← h]
        · rw [← h, ← h3]
    · next hpre =>
      split at h
      · next heq =>
        exact absurd
          (show w.isPrefixOf tph.token.lem = true by
            rw [heq]; simp [List.isPrefixOf_iff_prefix]) hpre
      · next heq =>
        obtain ⟨d, hd, hrest⟩ := ih tph m (fun x hx => hall x (by simp [hx])) h
        exact ⟨d, by simp [hd], hrest⟩

/-- C2 amended, witness: the counterexample input instantiates the amended
theorem; the matched entry is `world` and `byte_len` is the byte length of
its 5-character prefix. -/
theorem c2_amended_witness :
    (∀ c ∈ wordCands [c2Lw], c.1.pfx = true)
    ∧ ∃ c ∈ wordCands [c2Lw], c.2.isPrefixOf c2Tok.lem = true
        ∧ 1 ≤ c.1.origCc ∧ c.1.origCc ≤ c.2.length
        ∧ (5 : Nat) = c.1.origCc
        ∧ (5 : Nat) = utf8Len (c.2.take c.1.origCc) := by
  constructor
  · decide
  · have h := c2_amended_pfx_match_byte_len (wordCands [c2Lw]) ⟨c2Tok, 0, 0⟩
      { char_count := 5, byte_len := 5
      , pos := .word 0 0, qpos := (0, 0) } (by decide) (by decide)
    simpa using h

/-! Claim C4.  The claim states that `get_matches` returns matches sorted
by first token position, strictly ascending.  The source emits matches in
token order but then re-sorts them by `query_position_range[0]`
(`matching_words.rs` line 262), which breaks token order whenever query
order and text order disagree. -/

def c4Mw : MatchingWords :=
  ⟨[], [⟨[['s', 'p', 'l', 'i', 't']], (0, 0), false, 5⟩,
        ⟨[['w', 'o', 'r', 'l', 'd']], (1, 1), false, 5⟩]⟩

def c4Toks : List Token :=
  [⟨['w', 'o', 'r', 'l', 'd'], 0, 5, 0, 5, false, false⟩,
   ⟨['s', 'p', 'l', 'i', 't'], 6, 11, 6, 11, false, false⟩]

/-- C4 counterexample: with query words `split` (query position 0) and
`world` (query position 1) and the text `world split`, `get_matches`
returns the matches in query order, whose first token positions are
`[1, 0]` — not sorted by token position. -/
theorem c4_counterexample :
    (get_matches c4Mw c4Toks).map Match.firstTokenPos = [1, 0]
    ∧ ¬ List.Pairwise (fun a b : Match => a.firstTokenPos < b.firstTokenPos)
        (get_matches c4Mw c4Toks) := by
  decide

/-- C4 amended: the returned list is sorted by `query_position_range[0]`,
(non-strictly) ascending. -/
theorem c4_amended_sorted_by_qpos (mw : MatchingWords) (tokens : List Token) :
    List.Sorted (fun a b : Match => a.qpos.1 ≤ b.qpos.1) (get_matches mw tokens) := by
  have tot : IsTotal Match (fun a b => a.qpos.1 ≤ b.qpos.1) := ⟨fun a b => Nat.le_total _ _⟩
  have tr : IsTrans Match (fun a b => a.qpos.1 ≤ b.qpos.1) :=
    ⟨fun a b c h1 h2 => Nat.le_trans h1 h2⟩
  exact List.sorted_insertionSort _ _

/-! Claim C10.  In `try_get_word_match`, a prefix entry whose derivation
word has fewer characters than `original_char_count` makes
`char_indices().nth(original_char_count - 1)` return `None`, and the
source `continue`s with the next candidate. -/

/-- C10: single-word matching skips a prefix entry whose word is shorter
(in characters) than `original_char_count` and continues with the next
candidate: the result over the whole candidate list is unchanged by
removing such an entry, so no match is produced from it and no failure
occurs. -/
theorem c10_short_pfx_entry_skipped (tph : TPH) (lw : LocatedWords) (w : List Char)
    (rest : List (LocatedWords × List Char))
    (hp : lw.pfx = true) (hlen : w.length < lw.origCc) (hocc : 1 ≤ lw.origCc) :
    tryWordCands tph ((lw, w) :: rest) = tryWordCands tph rest := by
  simp only [tryWordCands, hp, Bool.true_and]
  split
  · next hpre =>
    rw [pfxByteLen_none w lw.origCc hlen]
  · next hpre =>
    have heq : tph.token.lem ≠ w := by
      intro heq
      exact hpre (by rw [heq]; simp [List.isPrefixOf_iff_prefix])
    rw [if_neg heq]

/-- C10 witness: a concrete prefix entry `wo` with
`original_char_count = 5` is skipped on the token `world`. -/
theorem c10_witness :
    ((⟨[['w', 'o']], (0, 0), true, 5⟩ : LocatedWords).pfx = true
      ∧ (['w', 'o'] : List Char).length < 5 ∧ 1 ≤ 5)
    ∧ tryWordCands ⟨⟨['w', 'o', 'r', 'l', 'd'], 0, 5, 0, 5, false, false⟩, 0, 0⟩
        [(⟨[['w', 'o']], (0, 0), true, 5⟩, ['w', 'o'])]
      = tryWordCands ⟨⟨['w', 'o', 'r', 'l', 'd'], 0, 5, 0, 5, false, false⟩, 0, 0⟩ [] :=
  ⟨⟨rfl, by decide, by decide⟩,
    c10_short_pfx_entry_skipped _ _ _ _ rfl (by decide) (by decide)⟩

/-! Embedding of `match_bounds/best_match_interval.rs`. -/

/-- Lexicographic strict comparison of `[i16; 3]` scores: Rust derives
`PartialOrd` for arrays lexicographically, and the source compares scores
with `>`. -/
def scoreGt (a b : Int × Int × Int) : Bool :=
  if a.1 ≠ b.1 then decide (b.1 < a.1)
  else if a.2.1 ≠ b.2.1 then decide (b.2.1 < a.2.1)
  else decide (b.2.2 < a.2.2)

/-- Uniqueness sweep step of `get_score` (lines 54-69): on a strictly
greater range start, flush the saved range's width into the `i16`
accumulator (both the `+ 1` and the `+=` are wrapping `i16` additions) and
replace the saved range entirely; otherwise only extend the saved end. -/
def uniqStep : Option (Nat × Nat) × Int → Nat × Nat → Option (Nat × Nat) × Int
  | (none, u), qp => (some qp, u)
  | (some (s, e), u), (rs, re) =>
    if rs > s then (some (rs, re), i16add u (i16add (toI16 (u16sub e s)) 1))
    else if re > e then (some (s, re), u)
    else (some (s, e), u)

/-- Body of the `while let` of `get_score`: one pass updating the phrase
tally, the distance to the peeked next match, and the uniqueness sweep
state, in source order; the `distance_score`/`order_score` accumulators
are `i16` cells, so every update is a wrapping `i16` operation. -/
def getScoreAux : List Match → Option (Nat × Nat) × Int → Int → Int →
    (Option (Nat × Nat) × Int) × Int × Int
  | [], st, dist, ord => (st, dist, ord)
  | m :: rest, st, dist, ord =>
    let step : Nat × Int × Int :=
      match rest with
      | next :: _ =>
        let inner : Nat × Int × Int :=
          match m.pos with
          | .word wp _ => (wp, dist, ord)
          | .phrase (fwp, lwp) _ =>
            let wipmo := toI16 (usub lwp fwp)
            (lwp, i16sub dist wipmo, i16add ord wipmo)
        (inner.1,
         i16sub inner.2.1 (toI16 (min (usub next.firstWordPos inner.1) 7)),
         inner.2.2)
      | [] =>
        match m.pos with
        | .word wp _ => (wp, dist, ord)
        | .phrase (fwp, lwp) _ =>
          let wipmo := toI16 (usub lwp fwp)
          (lwp, i16sub dist wipmo, i16add ord wipmo)
    getScoreAux rest (uniqStep st m.qpos) step.2.1 step.2.2

/-- Source fn `get_score`: the three-component interval score — uniqueness,
distance, order — with `order_score` initialized to the match count and the
saved uniqueness range flushed after the pass (wrapping `i16` additions,
as in the sweep step). -/
def get_score (ms : List Match) : Int × Int × Int :=
  let r := getScoreAux ms (none, 0) 0 (toI16 ms.length)
  let uniq : Int :=
    match r.1.1 with
    | some (s, e) => i16add r.1.2 (i16add (toI16 (u16sub e s)) 1)
    | none => r.1.2
  (uniq, r.2.1, r.2.2)

/-- Rust slice `matches[f..=l]`. -/
def slice (ms : List Match) (f l : Nat) : List Match :=
  (ms.drop f).take (l + 1 - f)

/-- Source struct `MatchesIndexRangeWithScore`. -/
structure BestIR where
  range : Nat × Nat
  score : Int × Int × Int
  deriving DecidableEq, Repr

/-- Source closure `save_best_interval`: score the candidate interval and
replace the best one exactly when the candidate's score is strictly
greater (`score > v.score`); an absent best is always replaced. -/
def save_best_interval (ms : List Match) (best : Option BestIR) (f l : Nat) : Option BestIR :=
  let sc := get_score (slice ms f l)
  let better : Bool :=
    match best with
    | none => true
    | some v => scoreGt sc v.score
  if better then some ⟨(f, l), sc⟩ else best

/-- Advance-`interval_first` loop of `get_best_match_interval` (lines
119-133), fuel-indexed (each iteration increments the index by one and the
index never exceeds the match count, so fuel `ms.length` is always
sufficient): stop at the last index, otherwise increment and stop as soon
as the first word position passes the probe or the window fits the crop
size again. -/
def advanceFirst (ms : List Match) (nmlwp crop : Nat) : Nat → Nat → Nat
  | 0, i => i
  | fuel + 1, i =>
    if i = ms.length - 1 then i
    else
      let i2 := i + 1
      let fwp := (ms.getD i2 default).firstWordPos
      if fwp > nmlwp ∨ usub nmlwp fwp < crop then i2
      else advanceFirst ms nmlwp crop fuel i2

/-- One iteration of the main `for` loop of `get_best_match_interval`:
when the enumerated next match would overflow the crop window, score
`[interval_first, index - 1]` (provided `index` is not 0) and advance
`interval_first`.  The state is `(interval_first, best)`;
`interval_first_match_first_word_pos` is recomputed from the state, which
the source keeps in sync. -/
def mainLoopStep (ms : List Match) (crop : Nat) (st : Nat × Option BestIR) (p : Nat × Match) :
    Nat × Option BestIR :=
  let nmlwp := p.2.lastWordPos
  let iffwp := (ms.getD st.1 default).firstWordPos
  if usub nmlwp iffwp ≥ crop then
    let best := if p.1 ≠ 0 then save_best_interval ms st.2 st.1 (p.1 - 1) else st.2
    (advanceFirst ms nmlwp crop ms.length st.1, best)
  else st

/-- Main `for` loop of `get_best_match_interval` over the enumerated
matches, returning the final `interval_first` and best interval. -/
def mainLoop (ms : List Match) (crop : Nat) : Nat × Option BestIR :=
  ms.enum.foldl (mainLoopStep ms crop) (0, none)

/-- Range of an optional best interval, defaulting to `[0, 0]` (line 146). -/
def rangeOrDefault : Option BestIR → Nat × Nat
  | some v => v.range
  | none => (0, 0)

/-- Source fn `get_best_match_interval`: run the sliding-window loop, then
score the final interval `[interval_first, last]` unless it is a single
match spanning at least `crop_size` words, and default to `[0, 0]` when
nothing was ever scored. -/
def get_best_match_interval (ms : List Match) (crop : Nat) : Nat × Nat :=
  rangeOrDefault
    (if (mainLoop ms crop).1 ≠ ms.length - 1
        ∨ (ms.getD (mainLoop ms crop).1 default).wordCount < crop then
      save_best_interval ms (mainLoop ms crop).2 (mainLoop ms crop).1 (ms.length - 1)
    else (mainLoop ms crop).2)

/-! Claim C3.  The claim states the uniqueness component of the interval
score is the sum of widths of the distinct query-position ranges covered,
after merging overlapping or adjacent ranges.  The sweep of `get_score`
(lines 54-69) flushes and replaces the saved range whenever the incoming
range start is strictly greater than the saved start, even when the ranges
overlap; it merges only ranges sharing the same start.  Overlapping ranges
with distinct starts are therefore each counted at full width. -/

/-- Uniqueness sweep of `get_score` as a standalone fold with the final
flush of the saved range, for relating the component to specifications. -/
def flushUniq : Option (Nat × Nat) × Int → Int
  | (some (s, e), u) => i16add u (i16add (toI16 (u16sub e s)) 1)
  | (none, u) => u

theorem getScoreAux_fst (ms : List Match) (st : Option (Nat × Nat) × Int) (dist ord : Int) :
    (getScoreAux ms st dist ord).1 = ms.foldl (fun s m => uniqStep s m.qpos) st := by
  induction ms generalizing st dist ord with
  | nil => rfl
  | cons m rest ih =>
    simp only [getScoreAux, List.foldl]
    exact ih _ _ _

theorem get_score_fst (ms : List Match) :
    (get_score ms).1 = flushUniq (ms.foldl (fun s m => uniqStep s m.qpos) (none, 0)) := by
  simp only [get_score]
  rw [getScoreAux_fst]
  rcases hf : ms.foldl (fun s m => uniqStep s m.qpos) (none, 0) with ⟨cur, u⟩
  rw [hf]
  cases cur with
  | none => rfl
  | some p => rcases p with ⟨s, e⟩; rfl

/-- Specification function written from the claim's words: sweep the
(sorted) query-position ranges merging overlapping or adjacent ranges and
sum the widths of the merged ranges.  Helper carrying the current merged
range. -/
def mergedGo (s e : Nat) : List (Nat × Nat) → Int
  | [] => (e : Int) - s + 1
  | (s2, e2) :: rest =>
    if s2 ≤ e + 1 then mergedGo s (max e e2) rest
    else ((e : Int) - s + 1) + mergedGo s2 e2 rest

/-- Specification function written from the claim's words: sum of widths of
the distinct query-position ranges covered, merging overlapping or
adjacent ranges. -/
def mergedWidths : List (Nat × Nat) → Int
  | [] => 0
  | (s, e) :: rest => mergedGo s e rest

/-- Amended-claim function: group consecutive ranges sharing the same
start; each group contributes `max end - start + 1`; groups are not merged
across distinct starts even when they overlap. -/
def groupWidthsGo (s e : Nat) : List (Nat × Nat) → Int
  | [] => (e : Int) - s + 1
  | (s2, e2) :: rest =>
    if s2 = s then groupWidthsGo s (max e e2) rest
    else ((e : Int) - s + 1) + groupWidthsGo s2 e2 rest

/-- Amended-claim function: sum over runs of equal query-position starts of
`max end - start + 1`. -/
def groupWidths : List (Nat × Nat) → Int
  | [] => 0
  | (s, e) :: rest => groupWidthsGo s e rest

def c3M1 : Match := ⟨1, 1, .word 0 0, (0, 1)⟩

def c3M2 : Match := ⟨1, 1, .word 1 1, (1, 1)⟩

/-- C3 counterexample: for the sorted match list with query-position
ranges `[0, 1]` and `[1, 1]` (overlapping, distinct starts), the
uniqueness component computed by `get_score` is 3, while the sum of widths
of the merged distinct ranges is 2 (they merge into `[0, 1]`, and an equal
duplicate contributes nothing). -/
theorem c3_counterexample :
    (get_score [c3M1, c3M2]).1 = 3
    ∧ mergedWidths [c3M1.qpos, c3M2.qpos] = 2
    ∧ List.Pairwise (fun a b : Match => a.qpos.1 ≤ b.qpos.1) [c3M1, c3M2]
    ∧ (3 : Int) ≠ 2 := by
  decide

theorem toI16_u16sub (s e : Nat) (hse : s ≤ e) (hb : e - s < 2 ^ 15) :
    toI16 (u16sub e s) = (e : Int) - s := by
  unfold toI16 u16sub
  have h2 : (2 ^ 16 + e - s) % 2 ^ 16 = e - s := by omega
  rw [h2]
  have h3 : (e - s) % 2 ^ 16 = e - s := by omega
  rw [h3, if_pos hb]
  omega

theorem i16add_eq (a b : Int) (h1 : -(2 ^ 15) ≤ a + b) (h2 : a + b < 2 ^ 15) :
    i16add a b = a + b := by
  unfold i16add i16wrap
  omega

theorem groupWidthsGo_pos (qps : List (Nat × Nat)) :
    ∀ (s e : Nat), s ≤ e → (∀ q ∈ qps, q.1 ≤ q.2) → 1 ≤ groupWidthsGo s e qps := by
  induction qps with
  | nil =>
    intro s e hse _
    rw [groupWidthsGo]
    omega
  | cons q rest ih =>
    intro s e hse hwf
    obtain ⟨s2, e2⟩ := q
    rw [groupWidthsGo]
    by_cases h : s2 = s
    · rw [if_pos h]
      exact ih s (max e e2) (Nat.le_trans hse (Nat.le_max_left e e2))
        (fun x hx => hwf x (by simp [hx]))
    · rw [if_neg h]
      have h1 := ih s2 e2 (hwf (s2, e2) (by simp)) (fun x hx => hwf x (by simp [hx]))
      omega

theorem uniq_group (qps : List (Nat × Nat)) :
    ∀ (s e : Nat) (u : Int),
      s ≤ e → e < 2 ^ 15 →
      (∀ q ∈ qps, s ≤ q.1) →
      (∀ q ∈ qps, q.1 ≤ q.2 ∧ q.2 < 2 ^ 15) →
      List.Pairwise (fun a b : Nat × Nat => a.1 ≤ b.1) qps →
      0 ≤ u →
      u + groupWidthsGo s e qps ≤ 2 ^ 15 - 1 →
      flushUniq (qps.foldl uniqStep (some (s, e), u)) = u + groupWidthsGo s e qps := by
  induction qps with
  | nil =>
    intro s e u hse hb _ _ _ hu hsum
    rw [groupWidthsGo] at hsum ⊢
    simp only [List.foldl, flushUniq]
    rw [toI16_u16sub s e hse (by omega)]
    rw [i16add_eq ((e : Int) - s) 1 (by omega) (by omega)]
    rw [i16add_eq u ((e : Int) - s + 1) (by omega) (by omega)]
  | cons q rest ih =>
    intro s e u hse hb hge hwf hsorted hu hsum
    obtain ⟨rs, re⟩ := q
    have hsrs : s ≤ rs := hge (rs, re) (by simp)
    have hwfh : rs ≤ re ∧ re < 2 ^ 15 := hwf (rs, re) (by simp)
    have hger : ∀ x ∈ rest, rs ≤ x.1 := by
      intro x hx
      exact (List.pairwise_cons.mp hsorted).1 x hx
    have hwfr : ∀ x ∈ rest, x.1 ≤ x.2 ∧ x.2 < 2 ^ 15 := fun x hx => hwf x (by simp [hx])
    have hsortr : List.Pairwise (fun a b : Nat × Nat => a.1 ≤ b.1) rest :=
      (List.pairwise_cons.mp hsorted).2
    simp only [List.foldl, uniqStep]
    by_cases hgt : rs > s
    · rw [if_pos hgt]
      rw [groupWidthsGo, if_neg (by omega)] at hsum ⊢
      have hpos : 1 ≤ groupWidthsGo rs re rest :=
        groupWidthsGo_pos rest rs re hwfh.1 (fun x hx => (hwfr x hx).1)
      rw [toI16_u16sub s e hse (by omega)]
      rw [i16add_eq ((e : Int) - s) 1 (by omega) (by omega)]
      rw [i16add_eq u ((e : Int) - s + 1) (by omega) (by omega)]
      rw [ih rs re (u + ((e : Int) - s + 1)) hwfh.1 hwfh.2 hger hwfr hsortr
        (by omega) (by omega)]
      ring
    · have hrs : rs = s := by omega
      subst hrs
      rw [if_neg hgt]
      by_cases hre : re > e
      · rw [if_pos hre]
        rw [groupWidthsGo, if_pos rfl] at hsum ⊢
        have hmax : max e re = re := by omega
        rw [hmax] at hsum ⊢
        exact ih rs re u (by omega) hwfh.2 hger hwfr hsortr hu hsum
      · rw [if_neg hre]
        rw [groupWidthsGo, if_pos rfl] at hsum ⊢
        have hmax : max e re = e := by omega
        rw [hmax] at hsum ⊢
        exact ih rs e u hse hb hger hwfr hsortr hu hsum

/-- C3 amended: for a non-empty list of matches sorted by query-position
start, with well-formed ranges whose endpoints fit a signed 16-bit width
and whose total group-width sum stays within `i16` range (so the `i16`
accumulator of the source does not overflow), the uniqueness component of
`get_score` equals the sum over maximal runs of matches sharing the same
query-position start of `(max end in the run) - start + 1`; overlapping
ranges with distinct starts are each counted at full width rather than
merged. -/
theorem c3_amended_uniqueness_is_group_widths (ms : List Match)
    (hsorted : List.Pairwise (fun a b : Match => a.qpos.1 ≤ b.qpos.1) ms)
    (hwf : ∀ m ∈ ms, m.qpos.1 ≤ m.qpos.2 ∧ m.qpos.2 < 2 ^ 15)
    (hbound : groupWidths (ms.map Match.qpos) ≤ 2 ^ 15 - 1) :
    (get_score ms).1 = groupWidths (ms.map Match.qpos) := by
  rw [get_score_fst]
  cases ms with
  | nil => rfl
  | cons m rest =>
    have hstep : (m :: rest).foldl (fun s x => uniqStep s x.qpos) (none, 0)
        = rest.foldl (fun s x => uniqStep s x.qpos) (some m.qpos, 0) := by
      simp [List.foldl, uniqStep]
    rw [hstep]
    have hfold : rest.foldl (fun s x => uniqStep s x.qpos) (some m.qpos, 0)
        = (rest.map Match.qpos).foldl uniqStep (some m.qpos, 0) := by
      rw [List.foldl_map]
    rw [hfold]
    have hwfh := hwf m (by simp)
    have hbound2 : (0 : Int) + groupWidthsGo m.qpos.1 m.qpos.2 (rest.map Match.qpos)
        ≤ 2 ^ 15 - 1 := by
      rw [Int.zero_add]
      exact hbound
    have hcov : some m.qpos = some (m.qpos.1, m.qpos.2) := by rfl
    rw [hcov]
    rw [uniq_group (rest.map Match.qpos) m.qpos.1 m.qpos.2 0 hwfh.1 hwfh.2
      (by
        intro x hx
        obtain ⟨y, hy, rfl⟩ := List.mem_map.mp hx
        exact (List.pairwise_cons.mp hsorted).1 y hy)
      (by
        intro x hx
        obtain ⟨y, hy, rfl⟩ := List.mem_map.mp hx
        exact hwf y (by simp [hy]))
      (by
        rw [List.pairwise_map]
        exact (List.pairwise_cons.mp hsorted).2)
      (Int.le_refl 0) hbound2]
    simp [groupWidths]

/-- C3 amended, witness: the counterexample input instantiates the amended
theorem; the total group-width sum is 3, far within `i16` range, and the
two runs (start 0, then start 1) contribute 2 and 1, matching the computed
uniqueness 3. -/
theorem c3_amended_witness :
    List.Pairwise (fun a b : Match => a.qpos.1 ≤ b.qpos.1) [c3M1, c3M2]
    ∧ (∀ m ∈ [c3M1, c3M2], m.qpos.1 ≤ m.qpos.2 ∧ m.qpos.2 < 2 ^ 15)
    ∧ groupWidths ([c3M1, c3M2].map Match.qpos) ≤ 2 ^ 15 - 1
    ∧ (get_score [c3M1, c3M2]).1 = groupWidths ([c3M1, c3M2].map Match.qpos) :=
  ⟨by decide, by decide, by decide,
    c3_amended_uniqueness_is_group_widths [c3M1, c3M2] (by decide) (by decide) (by decide)⟩

/-! Claim C5: the best-interval selector replaces the running best interval
only on a strictly greater score, so with equal scores the interval scored
first is kept. -/

/-- Lexicographic strict order on score triples, the propositional mirror
of `scoreGt`. -/
def lexGt (a b : Int × Int × Int) : Prop :=
  b.1 < a.1 ∨ (a.1 = b.1 ∧ (b.2.1 < a.2.1 ∨ (a.2.1 = b.2.1 ∧ b.2.2 < a.2.2)))

theorem scoreGt_iff (a b : Int × Int × Int) : scoreGt a b = true ↔ lexGt a b := by
  obtain ⟨a1, a2, a3⟩ := a
  obtain ⟨b1, b2, b3⟩ := b
  simp only [scoreGt, lexGt]
  split_ifs with h1 h2 <;> simp only [decide_eq_true_eq] <;> simp_all

theorem scoreGt_false_iff (a b : Int × Int × Int) : scoreGt a b = false ↔ ¬ lexGt a b := by
  rw [← scoreGt_iff]
  cases h : scoreGt a b <;> simp

theorem scoreGt_trans {a b c : Int × Int × Int}
    (h1 : scoreGt a b = true) (h2 : scoreGt b c = true) : scoreGt a c = true := by
  rw [scoreGt_iff] at h1 h2 ⊢
  obtain ⟨a1, a2, a3⟩ := a
  obtain ⟨b1, b2, b3⟩ := b
  obtain ⟨c1, c2, c3⟩ := c
  simp only [lexGt] at h1 h2 ⊢
  omega

theorem scoreGt_cross {a b c : Int × Int × Int}
    (h1 : scoreGt a b = true) (h2 : scoreGt c b = false) : scoreGt a c = true := by
  rw [scoreGt_iff] at h1 ⊢
  rw [scoreGt_false_iff] at h2
  obtain ⟨a1, a2, a3⟩ := a
  obtain ⟨b1, b2, b3⟩ := b
  obtain ⟨c1, c2, c3⟩ := c
  simp only [lexGt] at h1 h2 ⊢
  omega

/-- Folding the selector's best-interval update over a list of candidate
intervals, starting from no best interval — the exact accumulation
`get_best_match_interval` performs over the intervals it scores. -/
def runCandidates (ms : List Match) (cands : List (Nat × Nat)) : Option BestIR :=
  cands.foldl (fun b p => save_best_interval ms b p.1 p.2) none

theorem runCandidates_append (ms : List Match) (cs : List (Nat × Nat)) (p : Nat × Nat) :
    runCandidates ms (cs ++ [p])
      = save_best_interval ms (runCandidates ms cs) p.1 p.2 := by
  unfold runCandidates
  rw [List.foldl_append]
  rfl

/-- C5: among any list of candidate intervals scored in order by
`save_best_interval`, the one returned is the first candidate attaining the
maximal score: every earlier candidate scores strictly lower, and no later
candidate scores strictly higher (a later candidate replaces the current
best only on a strictly greater score, so equal scores keep the earlier
interval). -/
theorem c5_first_maximal_interval_wins (ms : List Match) (cands : List (Nat × Nat))
    (hne : cands ≠ []) :
    ∃ pre p post, cands = pre ++ p :: post
      ∧ runCandidates ms cands = some ⟨p, get_score (slice ms p.1 p.2)⟩
      ∧ (∀ q ∈ pre,
          scoreGt (get_score (slice ms p.1 p.2)) (get_score (slice ms q.1 q.2)) = true)
      ∧ (∀ q ∈ post,
          scoreGt (get_score (slice ms q.1 q.2)) (get_score (slice ms p.1 p.2)) = false) := by
  induction cands using List.reverseRecOn with
  | nil => exact absurd rfl hne
  | append_singleton cs p ih =>
    cases cs with
    | nil =>
      refine ⟨[], p, [], by simp, ?_, by simp, by simp⟩
      rw [runCandidates_append]
      rfl
    | cons c0 cs0 =>
      obtain ⟨pre, q, post, hdec, hrun, hpre, hpost⟩ := ih (by simp)
      rw [runCandidates_append, hrun]
      unfold save_best_interval
      cases hgt : scoreGt (get_score (slice ms p.1 p.2)) (get_score (slice ms q.1 q.2)) with
      | true =>
        refine ⟨c0 :: cs0, p, [], by simp, ?_, ?_, by simp⟩
        · simp [hgt]
        · intro r hr
          rw [hdec] at hr
          rcases List.mem_append.mp hr with hr | hr
          · exact scoreGt_trans hgt (hpre r hr)
          · rcases List.mem_cons.mp hr with rfl | hr
            · exact hgt
            · exact scoreGt_cross hgt (hpost r hr)
      | false =>
        refine ⟨pre, q, post ++ [p], by rw [hdec]; simp, ?_, hpre, ?_⟩
        · simp [hgt]
        · intro r hr
          rcases List.mem_append.mp hr with hr | hr
          · exact hpost r hr
          · rcases List.mem_singleton.mp hr with rfl
            exact hgt

def c5Ms : List Match := [⟨1, 1, .word 0 0, (0, 0)⟩, ⟨1, 1, .word 2 2, (1, 1)⟩]

/-- C5 witness: two candidate intervals over a concrete match list; the
fold returns the two-match interval `(0, 1)`, the first (and only)
candidate attaining the maximal score. -/
theorem c5_witness :
    ([((0 : Nat), (0 : Nat)), ((0 : Nat), (1 : Nat))] ≠ ([] : List (Nat × Nat)))
    ∧ ∃ pre p post, [((0 : Nat), (0 : Nat)), ((0 : Nat), (1 : Nat))] = pre ++ p :: post
      ∧ runCandidates c5Ms [((0 : Nat), (0 : Nat)), ((0 : Nat), (1 : Nat))]
          = some ⟨p, get_score (slice c5Ms p.1 p.2)⟩
      ∧ (∀ q ∈ pre,
          scoreGt (get_score (slice c5Ms p.1 p.2)) (get_score (slice c5Ms q.1 q.2)) = true)
      ∧ (∀ q ∈ post,
          scoreGt (get_score (slice c5Ms q.1 q.2)) (get_score (slice c5Ms p.1 p.2)) = false) :=
  ⟨by decide, c5_first_maximal_interval_wins c5Ms _ (by decide)⟩

/-! Claim C6: after the sliding-window loop, the final interval
`[interval_first, last]` is scored only when `interval_first` differs from
the last match index or the single remaining match spans fewer than
`crop_size` words; when no interval was ever scored the result defaults to
`[0, 0]`. -/

/-- C6: the final step of `get_best_match_interval` — given the state
`(l, best)` left by the main loop, the final interval `[l, last]` is
scored exactly when `l ≠ last` or the remaining match's word count is
below `crop_size`; otherwise the loop's best stands, and if nothing was
ever scored the result is `[0, 0]`. -/
theorem c6_final_interval_gating (ms : List Match) (crop : Nat) (hne : ms ≠ [])
    (l : Nat) (best : Option BestIR) (hmain : mainLoop ms crop = (l, best)) :
    ((l ≠ ms.length - 1 ∨ (ms.getD l default).wordCount < crop) →
        get_best_match_interval ms crop
          = rangeOrDefault (save_best_interval ms best l (ms.length - 1)))
    ∧ ((l = ms.length - 1 ∧ ¬ (ms.getD l default).wordCount < crop) →
        get_best_match_interval ms crop = rangeOrDefault best)
    ∧ (best = none → l = ms.length - 1 → ¬ (ms.getD l default).wordCount < crop →
        get_best_match_interval ms crop = (0, 0)) := by
  unfold get_best_match_interval
  rw [hmain]
  refine ⟨?_, ?_, ?_⟩
  · intro h
    rw [if_pos h]
  · intro h
    rw [if_neg (by push_neg; exact ⟨h.1, Nat.le_of_not_lt h.2⟩)]
  · intro hb hl hw
    rw [if_neg (by push_neg; exact ⟨hl, Nat.le_of_not_lt hw⟩), hb]
    rfl

def c6Ms : List Match := [⟨1, 1, .word 0 0, (0, 0)⟩]

/-- C6 witness: a single word match with `crop_size = 1` — the main loop
scores nothing and leaves `interval_first = 0 = last`; the single match
spans `1 ≥ crop_size` words, so the final interval is not scored and the
result defaults to `[0, 0]`. -/
theorem c6_witness :
    (c6Ms ≠ [] ∧ mainLoop c6Ms 1 = (0, none))
    ∧ (((0 : Nat) ≠ c6Ms.length - 1 ∨ (c6Ms.getD 0 default).wordCount < 1) →
        get_best_match_interval c6Ms 1
          = rangeOrDefault (save_best_interval c6Ms none 0 (c6Ms.length - 1)))
    ∧ (((0 : Nat) = c6Ms.length - 1 ∧ ¬ (c6Ms.getD 0 default).wordCount < 1) →
        get_best_match_interval c6Ms 1 = rangeOrDefault (none : Option BestIR))
    ∧ ((none : Option BestIR) = none → (0 : Nat) = c6Ms.length - 1 →
        ¬ (c6Ms.getD 0 default).wordCount < 1 →
        get_best_match_interval c6Ms 1 = (0, 0)) :=
  ⟨⟨by decide, by decide⟩, (c6_final_interval_gating c6Ms 1 (by decide) 0 none (by decide)).1,
    (c6_final_interval_gating c6Ms 1 (by decide) 0 none (by decide)).2.1,
    (c6_final_interval_gating c6Ms 1 (by decide) 0 none (by decide)).2.2⟩

/-! Embedding of `match_bounds.rs`.  Its two helper modules
(`adjust_indexes` and `best_match_range`) are not in the excerpt and are
modelled from the specification (§4.E and §4.D). -/

/-- Source enum `MatchBounds`. -/
inductive MatchBounds where
  | Full
  | Formatted (highlight_toggle : Bool) (indexes : List Nat)
  deriving DecidableEq, Repr

/-- Source struct `FormatOptions` (`matches.rs`). -/
structure FormatOptions where
  highlight : Bool
  crop : Option Nat
  deriving DecidableEq, Repr

/-- Source struct `MatchesAndCropIndexes`. -/
structure MatchesAndCropIndexes where
  matches_first_index : Nat
  matches_last_index : Nat
  crop_byte_start : Nat
  crop_byte_end : Nat
  deriving DecidableEq, Repr

/-- Source enum `CropThing`. -/
inductive CropThing where
  | last (v : Nat)
  | first (v : Nat)
  deriving DecidableEq, Repr

/-- Source fn `get_match_byte_position_range`: the byte span of a match is
`[byte_start, byte_start + byte_len]` anchored at its first token. -/
def get_match_byte_position_range (tokens : List Token) (m : Match) : Nat × Nat :=
  let byte_start :=
    match m.pos with
    | .word _ tp => (tokens.getD tp default).byte_start
    | .phrase _ (ftp, _) => (tokens.getD ftp default).byte_start
  (byte_start, byte_start + m.byte_len)

/-- Source fn `get_match_byte_position_rangee`: possibly widen the match
index to the preceding (resp. following) match when the crop boundary cuts
into it; returns the byte range and the updated index. -/
def get_match_byte_position_rangee (tokens : List Token) (ms : List Match)
    (index : Nat) (ct : CropThing) : (Nat × Nat) × Nat :=
  match ct with
  | .first cbs =>
    if index ≠ 0 then
      let r := get_match_byte_position_range tokens (ms.getD (index - 1) default)
      if cbs < r.2 then (r, index - 1)
      else (get_match_byte_position_range tokens (ms.getD index default), index)
    else (get_match_byte_position_range tokens (ms.getD index default), index)
  | .last cbe =>
    if index ≠ ms.length - 1 then
      let r := get_match_byte_position_range tokens (ms.getD (index + 1) default)
      if r.1 < cbe then (r, index + 1)
      else (get_match_byte_position_range tokens (ms.getD index default), index)
    else (get_match_byte_position_range tokens (ms.getD index default), index)

/-- Source fn `MatchBoundsHelper::get_match_bounds`: clamp the first and
last match byte ranges to the crop bounds and emit the ordered byte-offset
list, with the leading (resp. trailing) plain segment boundary present
exactly when the crop bound differs from the first match start (resp. last
match end); `highlight_toggle` is true exactly when there is no leading
plain segment. -/
def mbhGetMatchBounds (tokens : List Token) (ms : List Match)
    (mci : MatchesAndCropIndexes) : MatchBounds :=
  let r1 := get_match_byte_position_rangee tokens ms mci.matches_first_index
    (.first mci.crop_byte_start)
  let matches_first_index := r1.2
  let first_match_first_byte := max r1.1.1 mci.crop_byte_start
  let first_match_last_byte := r1.1.2
  let r2 :=
    if matches_first_index ≠ mci.matches_last_index then
      get_match_byte_position_rangee tokens ms mci.matches_last_index
        (.last mci.crop_byte_end)
    else ((first_match_first_byte, first_match_last_byte), mci.matches_last_index)
  let matches_last_index := r2.2
  let last_match_first_byte := r2.1.1
  let last_match_last_byte := min r2.1.2 mci.crop_byte_end
  let sml := usub matches_last_index matches_first_index + 1
  let startsNot : Bool := mci.crop_byte_start != first_match_first_byte
  let endsNot : Bool := mci.crop_byte_end != last_match_last_byte
  let indexes : List Nat :=
    (if startsNot then [mci.crop_byte_start] else [])
    ++ [first_match_first_byte]
    ++ (if sml > 1 then [first_match_last_byte] else [])
    ++ (if sml > 2 then
          (List.range' (matches_first_index + 1)
              (matches_last_index - (matches_first_index + 1))).flatMap
            (fun i =>
              let r := get_match_byte_position_range tokens (ms.getD i default)
              [r.1, r.2])
        else [])
    ++ (if sml > 1 then [last_match_first_byte] else [])
    ++ [last_match_last_byte]
    ++ (if endsNot then [mci.crop_byte_end] else [])
  MatchBounds.Formatted (!startsNot) indexes

/-- Modelled from the spec: index of the first non-separator token strictly
after `i`, used by the §4.E outward expansion (the `adjust_indexes` module
is absent from the excerpt). -/
def nextWordIdxAfter (tokens : List Token) (i : Nat) : Option Nat :=
  ((List.range tokens.length).filter
    (fun j => decide (i < j) && !(tokens.getD j default).is_separator)).head?

/-- Modelled from the spec: index of the last non-separator token strictly
before `i` (see `nextWordIdxAfter`). -/
def prevWordIdxBefore (tokens : List Token) (i : Nat) : Option Nat :=
  ((List.range tokens.length).filter
    (fun j => decide (j < i) && !(tokens.getD j default).is_separator)).getLast?

/-- Modelled from the spec: the §4.E outward expansion loop — consume one
word per step, alternating forward/backward starting forward, falling back
to the other side when one side has no further word, stopping when the
budget or both sides are exhausted.  `bk` and `fw` are the token indices of
the outermost words consumed so far. -/
def expandGo (tokens : List Token) : Nat → Bool → Nat → Nat → Nat × Nat
  | 0, _, bk, fw => (bk, fw)
  | b + 1, fwdTurn, bk, fw =>
    if fwdTurn then
      match nextWordIdxAfter tokens fw with
      | some j => expandGo tokens b false bk j
      | none =>
        match prevWordIdxBefore tokens bk with
        | some j => expandGo tokens b false j fw
        | none => (bk, fw)
    else
      match prevWordIdxBefore tokens bk with
      | some j => expandGo tokens b true j fw
      | none =>
        match nextWordIdxAfter tokens fw with
        | some j => expandGo tokens b true bk j
        | none => (bk, fw)

/-- Modelled from the spec: fn
`get_adjusted_indexes_for_highlights_and_crop_size` of the absent
`adjust_indexes` module — expand outward from the interval's first and last
token until `crop_size` words are reached (budget
`crop_size - words_count`) or both ends hit the text boundary, then step
each bound one token outward (onto the separator side) unless it is at the
text boundary, per §4.E's byte-offset conversion. -/
def adjustedIndexes (tokens : List Token) (first_tp last_tp words_count crop : Nat) :
    Nat × Nat :=
  let b := crop - words_count
  let r := expandGo tokens b true first_tp last_tp
  (if r.1 = 0 then 0 else r.1 - 1,
   if r.2 ≥ tokens.length - 1 then tokens.length - 1 else r.2 + 1)

/-- Modelled from the spec: fn `get_adjusted_index_forward_for_crop_size`
of the absent `adjust_indexes` module — walk forward from the first token
counting words until `crop_size` words are consumed (returning the index
one past the final word, where the crop marker sits) or the tokens end. -/
def adjIndexForwardGo (tokens : List Token) : Nat → Nat → Nat → Nat
  | i, _, 0 => i
  | i, remaining, fuel + 1 =>
    if i ≥ tokens.length - 1 then i
    else
      let rem2 :=
        if (tokens.getD i default).is_separator then remaining else remaining - 1
      if rem2 = 0 then i + 1 else adjIndexForwardGo tokens (i + 1) rem2 fuel

/-- Modelled from the spec: entry point of
`get_adjusted_index_forward_for_crop_size`. -/
def adjIndexForward (tokens : List Token) (crop_size : Nat) : Nat :=
  adjIndexForwardGo tokens 0 crop_size tokens.length

/-- Source fn `get_crop_bounds_with_no_matches`: crop the first `crop_size`
words, with the crop byte end snapped to the final token's start unless it
is the last token. -/
def get_crop_bounds_with_no_matches (tokens : List Token) (crop_size : Nat) : MatchBounds :=
  let fti := adjIndexForward tokens crop_size
  let ft := tokens.getD fti default
  MatchBounds.Formatted false
    [0, if fti ≠ tokens.length - 1 then ft.byte_start else ft.byte_end]

/-- Modelled from the spec: fn `get_best_match_index_range` of the absent
`best_match_range` module; §4.D describes the same selector as the sibling
draft `best_match_interval.rs`, so it is modelled by
`get_best_match_interval`; the `query_positions` argument is unused. -/
def get_best_match_index_range (ms : List Match) (_qpos : List (Nat × Nat)) (crop : Nat) :
    Nat × Nat :=
  get_best_match_interval ms crop

/-- Source fn `get_matches_and_crop_indexes`: select the best match
interval, expand it to the crop-word budget, and convert the expansion
bounds to byte offsets, snapping to the outer edge of boundary tokens and
the inner edge of interior ones. -/
def get_matches_and_crop_indexes (tokens : List Token) (ms : List Match)
    (qpos : List (Nat × Nat)) (crop : Nat) : MatchesAndCropIndexes :=
  let r := get_best_match_index_range ms qpos crop
  let first_match := ms.getD r.1 default
  let last_match := ms.getD r.2 default
  let words_count := usub last_match.lastWordPos first_match.firstWordPos + 1
  let adj := adjustedIndexes tokens first_match.firstTokenPos last_match.lastTokenPos
    words_count crop
  let backward_token := tokens.getD adj.1 default
  let forward_token := tokens.getD adj.2 default
  { matches_first_index := r.1
  , matches_last_index := r.2
  , crop_byte_start :=
      if adj.1 = 0 then backward_token.byte_start else backward_token.byte_end
  , crop_byte_end :=
      if adj.2 = tokens.length - 1 then forward_token.byte_end else forward_token.byte_start }

/-- Source fn `get_match_bounds` (lines 240-270): dispatch on the crop
option (with `Some(0)` filtered to `None`), the presence of matches and the
highlight flag. -/
def get_match_bounds (tokens : List Token) (ms : List Match) (qpos : List (Nat × Nat))
    (fo : FormatOptions) : MatchBounds :=
  match fo.crop.filter (fun v => v != 0) with
  | some crop_size =>
    if ms.isEmpty then get_crop_bounds_with_no_matches tokens crop_size
    else if fo.highlight then
      mbhGetMatchBounds tokens ms (get_matches_and_crop_indexes tokens ms qpos crop_size)
    else
      MatchBounds.Formatted false
        [(get_matches_and_crop_indexes tokens ms qpos crop_size).crop_byte_start,
         (get_matches_and_crop_indexes tokens ms qpos crop_size).crop_byte_end]
  | none =>
    if fo.highlight && !ms.isEmpty then
      mbhGetMatchBounds tokens ms
        { matches_first_index := 0
        , matches_last_index := ms.length - 1
        , crop_byte_start := 0
        , crop_byte_end := (tokens.getD (tokens.length - 1) default).byte_end }
    else MatchBounds.Full

/-- C9: `get_match_bounds` with `crop = Some 0` returns exactly the result
of `crop = None`, for every token list, match list, query positions and
highlight flag — the dispatch filters `Some 0` to `None` before any other
decision. -/
theorem c9_crop_zero_is_no_crop (tokens : List Token) (ms : List Match)
    (qpos : List (Nat × Nat)) (hl : Bool) :
    get_match_bounds tokens ms qpos ⟨hl, some 0⟩
      = get_match_bounds tokens ms qpos ⟨hl, none⟩ := by
  rfl

/-! Claim C8.  The claim states the crop window is monotone in
`crop_size`: a larger crop size yields a window containing the smaller
one.  The best-interval selector can choose a different match interval at
the larger crop size (an interval infeasible at the smaller size but
scoring higher once feasible), moving the window to a disjoint region of
the text. -/

def c8Toks : List Token :=
  (List.range 51).map fun i => ⟨[], 10 * i, 10 * i + 5, i, i + 1, false, false⟩

def c8Ms : List Match :=
  [⟨1, 1, .word 0 0, (0, 1)⟩, ⟨1, 1, .word 2 2, (2, 3)⟩, ⟨1, 1, .word 50 50, (4, 6)⟩]

/-- C8 counterexample: 51 one-word tokens (token `i` at bytes
`[10 i, 10 i + 5]`), three word matches at words 0, 2 and 50 with
query-position ranges `[0,1]`, `[2,3]` and `[4,6]`.  At `crop_size = 2`
the pair at words 0-2 is infeasible and the width-3 single match at word
50 wins: window bytes `[485, 505]`.  At `crop_size = 10` the pair
(uniqueness 4) beats it: window bytes `[0, 100]`.  The larger crop's
window does not contain the smaller one's. -/
theorem c8_counterexample :
    (2 : Nat) ≤ 10
    ∧ (get_matches_and_crop_indexes c8Toks c8Ms [] 2).crop_byte_start = 485
    ∧ (get_matches_and_crop_indexes c8Toks c8Ms [] 2).crop_byte_end = 505
    ∧ (get_matches_and_crop_indexes c8Toks c8Ms [] 10).crop_byte_start = 0
    ∧ (get_matches_and_crop_indexes c8Toks c8Ms [] 10).crop_byte_end = 100
    ∧ ¬ ((get_matches_and_crop_indexes c8Toks c8Ms [] 10).crop_byte_start
          ≤ (get_matches_and_crop_indexes c8Toks c8Ms [] 2).crop_byte_start
        ∧ (get_matches_and_crop_indexes c8Toks c8Ms [] 2).crop_byte_end
          ≤ (get_matches_and_crop_indexes c8Toks c8Ms [] 10).crop_byte_end) := by
  decide

theorem nextWordIdxAfter_gt (tokens : List Token) (i j : Nat)
    (h : nextWordIdxAfter tokens i = some j) : i < j := by
  unfold nextWordIdxAfter at h
  have hx : j ∈ (List.range tokens.length).filter
      (fun j => decide (i < j) && !(tokens.getD j default).is_separator) :=
    List.mem_of_mem_head? (by rw [h]; rfl)
  have hp := (List.mem_filter.mp hx).2
  simp only [Bool.and_eq_true, decide_eq_true_eq] at hp
  exact hp.1

theorem prevWordIdxBefore_lt (tokens : List Token) (i j : Nat)
    (h : prevWordIdxBefore tokens i = some j) : j < i := by
  unfold prevWordIdxBefore at h
  obtain ⟨hne, heq⟩ := List.mem_getLast?_eq_getLast (l :=
    (List.range tokens.length).filter
      (fun j => decide (j < i) && !(tokens.getD j default).is_separator)) h
  have hx : j ∈ (List.range tokens.length).filter
      (fun j => decide (j < i) && !(tokens.getD j default).is_separator) := by
    rw [heq]
    exact List.getLast_mem hne
  have hp := (List.mem_filter.mp hx).2
  simp only [Bool.and_eq_true, decide_eq_true_eq] at hp
  exact hp.1

theorem expandGo_t_some (tokens : List Token) (b bk fw j : Nat)
    (hf : nextWordIdxAfter tokens fw = some j) :
    expandGo tokens (b + 1) true bk fw = expandGo tokens b false bk j := by
  rw [expandGo, hf]
  rfl

theorem expandGo_t_ns (tokens : List Token) (b bk fw j : Nat)
    (hf : nextWordIdxAfter tokens fw = none) (hb : prevWordIdxBefore tokens bk = some j) :
    expandGo tokens (b + 1) true bk fw = expandGo tokens b false j fw := by
  rw [expandGo, hf, hb]
  rfl

theorem expandGo_t_nn (tokens : List Token) (b bk fw : Nat)
    (hf : nextWordIdxAfter tokens fw = none) (hb : prevWordIdxBefore tokens bk = none) :
    expandGo tokens (b + 1) true bk fw = (bk, fw) := by
  rw [expandGo, hf, hb]
  rfl

theorem expandGo_f_some (tokens : List Token) (b bk fw j : Nat)
    (hb : prevWordIdxBefore tokens bk = some j) :
    expandGo tokens (b + 1) false bk fw = expandGo tokens b true j fw := by
  rw [expandGo, hb]
  rfl

theorem expandGo_f_ns (tokens : List Token) (b bk fw j : Nat)
    (hb : prevWordIdxBefore tokens bk = none) (hf : nextWordIdxAfter tokens fw = some j) :
    expandGo tokens (b + 1) false bk fw = expandGo tokens b true bk j := by
  rw [expandGo, hb, hf]
  rfl

theorem expandGo_f_nn (tokens : List Token) (b bk fw : Nat)
    (hb : prevWordIdxBefore tokens bk = none) (hf : nextWordIdxAfter tokens fw = none) :
    expandGo tokens (b + 1) false bk fw = (bk, fw) := by
  rw [expandGo, hb, hf]
  rfl

theorem expandGo_expands (tokens : List Token) :
    ∀ (b : Nat) (t : Bool) (bk fw : Nat),
      (expandGo tokens b t bk fw).1 ≤ bk ∧ fw ≤ (expandGo tokens b t bk fw).2 := by
  intro b
  induction b with
  | zero => intro t bk fw; exact ⟨Nat.le_refl _, Nat.le_refl _⟩
  | succ b ih =>
    intro t bk fw
    cases t with
    | true =>
      cases hf : nextWordIdxAfter tokens fw with
      | some j =>
        rw [expandGo_t_some tokens b bk fw j hf]
        have hj := nextWordIdxAfter_gt tokens fw j hf
        have := ih false bk j
        exact ⟨this.1, Nat.le_trans (Nat.le_of_lt hj) this.2⟩
      | none =>
        cases hb : prevWordIdxBefore tokens bk with
        | some j =>
          rw [expandGo_t_ns tokens b bk fw j hf hb]
          have hj := prevWordIdxBefore_lt tokens bk j hb
          have := ih false j fw
          exact ⟨Nat.le_trans this.1 (Nat.le_of_lt hj), this.2⟩
        | none =>
          rw [expandGo_t_nn tokens b bk fw hf hb]
          exact ⟨Nat.le_refl _, Nat.le_refl _⟩
    | false =>
      cases hb : prevWordIdxBefore tokens bk with
      | some j =>
        rw [expandGo_f_some tokens b bk fw j hb]
        have hj := prevWordIdxBefore_lt tokens bk j hb
        have := ih true j fw
        exact ⟨Nat.le_trans this.1 (Nat.le_of_lt hj), this.2⟩
      | none =>
        cases hf : nextWordIdxAfter tokens fw with
        | some j =>
          rw [expandGo_f_ns tokens b bk fw j hb hf]
          have hj := nextWordIdxAfter_gt tokens fw j hf
          have := ih true bk j
          exact ⟨this.1, Nat.le_trans (Nat.le_of_lt hj) this.2⟩
        | none =>
          rw [expandGo_f_nn tokens b bk fw hb hf]
          exact ⟨Nat.le_refl _, Nat.le_refl _⟩

theorem expandGo_succ (tokens : List Token) :
    ∀ (b : Nat) (t : Bool) (bk fw : Nat),
      (expandGo tokens (b + 1) t bk fw).1 ≤ (expandGo tokens b t bk fw).1
      ∧ (expandGo tokens b t bk fw).2 ≤ (expandGo tokens (b + 1) t bk fw).2 := by
  intro b
  induction b with
  | zero =>
    intro t bk fw
    exact expandGo_expands tokens 1 t bk fw
  | succ b ih =>
    intro t bk fw
    cases t with
    | true =>
      cases hf : nextWordIdxAfter tokens fw with
      | some j =>
        rw [expandGo_t_some tokens (b + 1) bk fw j hf, expandGo_t_some tokens b bk fw j hf]
        exact ih false bk j
      | none =>
        cases hb : prevWordIdxBefore tokens bk with
        | some j =>
          rw [expandGo_t_ns tokens (b + 1) bk fw j hf hb, expandGo_t_ns tokens b bk fw j hf hb]
          exact ih false j fw
        | none =>
          rw [expandGo_t_nn tokens (b + 1) bk fw hf hb, expandGo_t_nn tokens b bk fw hf hb]
          exact ⟨Nat.le_refl _, Nat.le_refl _⟩
    | false =>
      cases hb : prevWordIdxBefore tokens bk with
      | some j =>
        rw [expandGo_f_some tokens (b + 1) bk fw j hb, expandGo_f_some tokens b bk fw j hb]
        exact ih true j fw
      | none =>
        cases hf : nextWordIdxAfter tokens fw with
        | some j =>
          rw [expandGo_f_ns tokens (b + 1) bk fw j hb hf, expandGo_f_ns tokens b bk fw j hb hf]
          exact ih true bk j
        | none =>
          rw [expandGo_f_nn tokens (b + 1) bk fw hb hf, expandGo_f_nn tokens b bk fw hb hf]
          exact ⟨Nat.le_refl _, Nat.le_refl _⟩

theorem expandGo_mono (tokens : List Token) (b1 b2 : Nat) (h : b1 ≤ b2)
    (t : Bool) (bk fw : Nat) :
    (expandGo tokens b2 t bk fw).1 ≤ (expandGo tokens b1 t bk fw).1
    ∧ (expandGo tokens b1 t bk fw).2 ≤ (expandGo tokens b2 t bk fw).2 := by
  induction b2, h using Nat.le_induction with
  | base => exact ⟨Nat.le_refl _, Nat.le_refl _⟩
  | succ n hmn ih =>
    have hs := expandGo_succ tokens n t bk fw
    exact ⟨Nat.le_trans hs.1 ih.1, Nat.le_trans ih.2 hs.2⟩

/-- C8 amended: for a fixed chosen best-match interval (same first and
last token positions and word count), the crop token window is monotone in
`crop_size`: with `c1 ≤ c2` the window `[index_backward, index_forward]`
computed for `c2` contains the one computed for `c1`.  (When the selector
chooses a different interval at the larger crop size, the window can move
entirely, as the counterexample shows.) -/
theorem c8_amended_window_monotone_for_fixed_interval (tokens : List Token)
    (ftp ltp wc c1 c2 : Nat) (h : c1 ≤ c2) :
    (adjustedIndexes tokens ftp ltp wc c2).1 ≤ (adjustedIndexes tokens ftp ltp wc c1).1
    ∧ (adjustedIndexes tokens ftp ltp wc c1).2 ≤ (adjustedIndexes tokens ftp ltp wc c2).2 := by
  have hb : c1 - wc ≤ c2 - wc := Nat.sub_le_sub_right h wc
  have hm := expandGo_mono tokens (c1 - wc) (c2 - wc) hb true ftp ltp
  simp only [adjustedIndexes]
  constructor
  · split_ifs <;> omega
  · split_ifs <;> omega

/-- C8 amended, witness: on the counterexample's tokens with the fixed
interval spanning tokens 0 to 2 (3 words), crop sizes 5 and 10 give
windows `[0, 5]` and `[0, 10]`: the larger contains the smaller. -/
theorem c8_amended_witness :
    (5 : Nat) ≤ 10
    ∧ ((adjustedIndexes c8Toks 0 2 3 10).1 ≤ (adjustedIndexes c8Toks 0 2 3 5).1
      ∧ (adjustedIndexes c8Toks 0 2 3 5).2 ≤ (adjustedIndexes c8Toks 0 2 3 10).2) :=
  ⟨by decide, c8_amended_window_monotone_for_fixed_interval c8Toks 0 2 3 5 10 (by decide)⟩

/-! Claim C7: matches returned by `get_matches` occupy pairwise disjoint
token-index ranges.  The emission loop consumes every matched token — a
committed phrase cursor resumes after the phrase's last token, and a word
match consumes its token — so emitted ranges are strictly increasing, and
the final re-sort permutes them without affecting disjointness. -/

theorem mkStream_ge (ts : List Token) :
    ∀ (tp wp : Nat), ∀ x ∈ mkStream ts tp wp, tp ≤ x.position_by_token := by
  induction ts with
  | nil => intro tp wp x hx; simp [mkStream] at hx
  | cons t ts ih =>
    intro tp wp x hx
    rw [mkStream] at hx
    by_cases hsep : t.is_separator
    · simp only [hsep, if_true] at hx
      exact Nat.le_trans (Nat.le_succ tp) (ih (tp + 1) wp x hx)
    · simp only [hsep, if_false] at hx
      rcases List.mem_cons.mp hx with rfl | hx
      · exact Nat.le_refl _
      · exact Nat.le_trans (Nat.le_succ tp) (ih (tp + 1) (wp + 1) x hx)

theorem mkStream_pairwise (ts : List Token) :
    ∀ (tp wp : Nat),
      List.Pairwise (fun a b : TPH => a.position_by_token < b.position_by_token)
        (mkStream ts tp wp) := by
  induction ts with
  | nil => intro tp wp; simp [mkStream]
  | cons t ts ih =>
    intro tp wp
    rw [mkStream]
    by_cases hsep : t.is_separator
    · simp only [hsep, if_true]
      exact ih (tp + 1) wp
    · simp only [hsep, if_false]
      refine List.pairwise_cons.mpr ⟨?_, ih (tp + 1) (wp + 1)⟩
      intro x hx
      exact Nat.lt_of_lt_of_le (Nat.lt_succ_self tp) (mkStream_ge ts (tp + 1) (wp + 1) x hx)

theorem matchSlots_sublist :
    ∀ (ss : List (Option (List Char))) (st : List TPH) (l : TPH) (rest : List TPH),
      matchSlots ss st = some (l, rest) → rest.Sublist st := by
  intro ss
  induction ss with
  | nil => intro st l rest h; simp [matchSlots] at h
  | cons s ss ih =>
    intro st l rest h
    cases st with
    | nil => simp [matchSlots] at h
    | cons t ts =>
      simp only [matchSlots] at h
      cases hc : slotMatches s t with
      | false => simp [hc] at h
      | true =>
        simp only [hc, if_true] at h
        cases ss with
        | nil =>
          simp only [Option.some.injEq, Prod.mk.injEq] at h
          rw [← h.2]
          exact (List.sublist_cons_self t ts)
        | cons s2 ss2 =>
          exact (ih ts l rest h).trans (List.sublist_cons_self t ts)

theorem matchSlots_last_mem :
    ∀ (ss : List (Option (List Char))) (st : List TPH) (l : TPH) (rest : List TPH),
      matchSlots ss st = some (l, rest) → l ∈ st := by
  intro ss
  induction ss with
  | nil => intro st l rest h; simp [matchSlots] at h
  | cons s ss ih =>
    intro st l rest h
    cases st with
    | nil => simp [matchSlots] at h
    | cons t ts =>
      simp only [matchSlots] at h
      cases hc : slotMatches s t with
      | false => simp [hc] at h
      | true =>
        simp only [hc, if_true] at h
        cases ss with
        | nil =>
          simp only [Option.some.injEq, Prod.mk.injEq] at h
          rw [← h.1]
          exact List.mem_cons_self t ts
        | cons s2 ss2 =>
          exact List.mem_cons_of_mem t (ih ts l rest h)

theorem matchSlots_rest_gt :
    ∀ (ss : List (Option (List Char))) (st : List TPH) (l : TPH) (rest : List TPH),
      matchSlots ss st = some (l, rest) →
      List.Pairwise (fun a b : TPH => a.position_by_token < b.position_by_token) st →
      ∀ r ∈ rest, l.position_by_token < r.position_by_token := by
  intro ss
  induction ss with
  | nil => intro st l rest h; simp [matchSlots] at h
  | cons s ss ih =>
    intro st l rest h hp
    cases st with
    | nil => simp [matchSlots] at h
    | cons t ts =>
      simp only [matchSlots] at h
      cases hc : slotMatches s t with
      | false => simp [hc] at h
      | true =>
        simp only [hc, if_true] at h
        cases ss with
        | nil =>
          simp only [Option.some.injEq, Prod.mk.injEq] at h
          intro r hr
          rw [← h.1]
          exact (List.pairwise_cons.mp hp).1 r (h.2 ▸ hr)
        | cons s2 ss2 =>
          exact ih ts l rest h (List.pairwise_cons.mp hp).2

theorem matchSlots_head_le :
    ∀ (ss : List (Option (List Char))) (t : TPH) (ts : List TPH) (l : TPH) (rest : List TPH),
      matchSlots ss (t :: ts) = some (l, rest) →
      List.Pairwise (fun a b : TPH => a.position_by_token < b.position_by_token) (t :: ts) →
      t.position_by_token ≤ l.position_by_token := by
  intro ss t ts l rest h hp
  cases ss with
  | nil => simp [matchSlots] at h
  | cons s ss =>
    simp only [matchSlots] at h
    cases hc : slotMatches s t with
    | false => simp [hc] at h
    | true =>
      simp only [hc, if_true] at h
      cases ss with
      | nil =>
        simp only [Option.some.injEq, Prod.mk.injEq] at h
        rw [← h.1]
      | cons s2 ss2 =>
        have hmem := matchSlots_last_mem (s2 :: ss2) ts l rest h
        exact Nat.le_of_lt ((List.pairwise_cons.mp hp).1 l hmem)

theorem tryPhrase_facts :
    ∀ (lps : List LocatedPhrase) (st : List TPH) (m : Match) (rest : List TPH),
      try_get_phrase_match lps st = some (m, rest) →
      List.Pairwise (fun a b : TPH => a.position_by_token < b.position_by_token) st →
      (∃ hd tl, st = hd :: tl ∧ m.firstTokenPos = hd.position_by_token)
      ∧ m.firstTokenPos ≤ m.lastTokenPos
      ∧ (∀ r ∈ rest, m.lastTokenPos < r.position_by_token)
      ∧ rest.Sublist st := by
  intro lps
  induction lps with
  | nil => intro st m rest h; simp [try_get_phrase_match] at h
  | cons lp lps ih =>
    intro st m rest h hp
    simp only [try_get_phrase_match] at h
    cases hms : matchSlots lp.words st with
    | none =>
      rw [hms] at h
      exact ih st m rest h hp
    | some p =>
      obtain ⟨last, rest2⟩ := p
      rw [hms] at h
      cases st with
      | nil => exact ih [] m rest h hp
      | cons first tail =>
        simp only [Option.some.injEq, Prod.mk.injEq] at h
        obtain ⟨hm, hrest⟩ := h
        rw [hrest] at hms
        have h1 : m.firstTokenPos = first.position_by_token := by rw [← hm]; rfl
        have h2 : m.lastTokenPos = last.position_by_token := by rw [← hm]; rfl
        refine ⟨⟨first, tail, rfl, h1⟩, ?_, ?_, ?_⟩
        · rw [h1, h2]
          exact matchSlots_head_le lp.words first tail last rest hms hp
        · intro r hr
          rw [h2]
          exact matchSlots_rest_gt lp.words (first :: tail) last rest hms hp r hr
        · exact matchSlots_sublist lp.words (first :: tail) last rest hms

theorem tryWordCands_pos :
    ∀ (cs : List (LocatedWords × List Char)) (tph : TPH) (m : Match),
      tryWordCands tph cs = some m →
      m.firstTokenPos = tph.position_by_token ∧ m.lastTokenPos = tph.position_by_token := by
  intro cs
  induction cs with
  | nil => intro tph m h; simp [tryWordCands] at h
  | cons c cs ih =>
    intro tph m h
    obtain ⟨lw, w⟩ := c
    simp only [tryWordCands] at h
    split at h
    · split at h
      · exact ih tph m h
      · next bl hbl =>
        injection h with h
        rw [← h]
        exact ⟨rfl, rfl⟩
    · split at h
      · injection h with h
        rw [← h]
        exact ⟨rfl, rfl⟩
      · exact ih tph m h

theorem getMatchesAux_phrase (mw : MatchingWords) (fuel : Nat) (st : List TPH)
    (m : Match) (rest : List TPH)
    (h : try_get_phrase_match mw.phrases st = some (m, rest)) :
    getMatchesAux mw (fuel + 1) st = m :: getMatchesAux mw fuel rest := by
  show getMatchesStep mw (getMatchesAux mw fuel) st = _
  unfold getMatchesStep
  rw [h]

theorem getMatchesAux_nil (mw : MatchingWords) (fuel : Nat)
    (h : try_get_phrase_match mw.phrases [] = none) :
    getMatchesAux mw (fuel + 1) [] = [] := by
  show getMatchesStep mw (getMatchesAux mw fuel) [] = _
  unfold getMatchesStep
  rw [h]

theorem getMatchesAux_word (mw : MatchingWords) (fuel : Nat) (tph : TPH) (rest : List TPH)
    (m : Match) (hph : try_get_phrase_match mw.phrases (tph :: rest) = none)
    (hw : tryWordCands tph (wordCands mw.words) = some m) :
    getMatchesAux mw (fuel + 1) (tph :: rest) = m :: getMatchesAux mw fuel rest := by
  show getMatchesStep mw (getMatchesAux mw fuel) (tph :: rest) = _
  unfold getMatchesStep
  simp only [hph, hw]

theorem getMatchesAux_noword (mw : MatchingWords) (fuel : Nat) (tph : TPH) (rest : List TPH)
    (hph : try_get_phrase_match mw.phrases (tph :: rest) = none)
    (hw : tryWordCands tph (wordCands mw.words) = none) :
    getMatchesAux mw (fuel + 1) (tph :: rest) = getMatchesAux mw fuel rest := by
  show getMatchesStep mw (getMatchesAux mw fuel) (tph :: rest) = _
  unfold getMatchesStep
  simp only [hph, hw]

theorem getMatchesAux_bounds :
    ∀ (fuel : Nat) (mw : MatchingWords) (st : List TPH) (n : Nat),
      List.Pairwise (fun a b : TPH => a.position_by_token < b.position_by_token) st →
      (∀ x ∈ st, n ≤ x.position_by_token) →
      (∀ m ∈ getMatchesAux mw fuel st,
        n ≤ m.firstTokenPos ∧ m.firstTokenPos ≤ m.lastTokenPos)
      ∧ List.Pairwise (fun a b : Match => a.lastTokenPos < b.firstTokenPos)
          (getMatchesAux mw fuel st) := by
  intro fuel
  induction fuel with
  | zero =>
    intro mw st n _ _
    exact ⟨by simp [getMatchesAux], by simp [getMatchesAux]⟩
  | succ fuel ih =>
    intro mw st n hp hn
    cases hph : try_get_phrase_match mw.phrases st with
    | some p =>
      obtain ⟨m, rest⟩ := p
      rw [getMatchesAux_phrase mw fuel st m rest hph]
      obtain ⟨⟨hd, tl, hst, hfirst⟩, hfl, hrest, hsub⟩ :=
        tryPhrase_facts mw.phrases st m rest hph hp
      have hprest : List.Pairwise (fun a b : TPH => a.position_by_token < b.position_by_token)
          rest := hp.sublist hsub
      have hnrest : ∀ x ∈ rest, m.lastTokenPos + 1 ≤ x.position_by_token := fun x hx =>
        Nat.succ_le_of_lt (hrest x hx)
      obtain ⟨ihm, ihpw⟩ := ih mw rest (m.lastTokenPos + 1) hprest hnrest
      have hnm : n ≤ m.firstTokenPos := by
        rw [hfirst]
        exact hn hd (by rw [hst]; exact List.mem_cons_self hd tl)
      constructor
      · intro x hx
        rcases List.mem_cons.mp hx with rfl | hx
        · exact ⟨hnm, hfl⟩
        · have := (ihm x hx).1
          exact ⟨Nat.le_trans (Nat.le_trans hnm hfl) (Nat.le_trans (Nat.le_succ _) this),
            (ihm x hx).2⟩
      · refine List.pairwise_cons.mpr ⟨?_, ihpw⟩
        intro x hx
        exact Nat.lt_of_succ_le (ihm x hx).1
    | none =>
      cases st with
      | nil =>
        rw [getMatchesAux_nil mw fuel hph]
        exact ⟨by simp, by simp⟩
      | cons tph rest =>
        have hprest := (List.pairwise_cons.mp hp).2
        have hgt : ∀ x ∈ rest, tph.position_by_token < x.position_by_token :=
          (List.pairwise_cons.mp hp).1
        cases hw : tryWordCands tph (wordCands mw.words) with
        | some m =>
          rw [getMatchesAux_word mw fuel tph rest m hph hw]
          obtain ⟨hf, hl⟩ := tryWordCands_pos (wordCands mw.words) tph m hw
          have hnrest : ∀ x ∈ rest, m.lastTokenPos + 1 ≤ x.position_by_token := by
            intro x hx
            rw [hl]
            exact Nat.succ_le_of_lt (hgt x hx)
          obtain ⟨ihm, ihpw⟩ := ih mw rest (m.lastTokenPos + 1) hprest hnrest
          have hnm : n ≤ m.firstTokenPos := by
            rw [hf]
            exact hn tph (List.mem_cons_self tph rest)
          constructor
          · intro x hx
            rcases List.mem_cons.mp hx with rfl | hx
            · exact ⟨hnm, by rw [hf, hl]⟩
            · exact ⟨Nat.le_trans hnm (by
                rw [hf, ← hl]
                exact Nat.le_trans (Nat.le_succ _) (ihm x hx).1), (ihm x hx).2⟩
          · refine List.pairwise_cons.mpr ⟨?_, ihpw⟩
            intro x hx
            exact Nat.lt_of_succ_le (ihm x hx).1
        | none =>
          rw [getMatchesAux_noword mw fuel tph rest hph hw]
          exact ih mw rest n hprest (fun x hx => hn x (List.mem_cons_of_mem tph hx))

/-- C7: any two matches returned by `get_matches` occupy disjoint
token-index ranges — for each pair, one match's last token position is
strictly below the other's first; no token position belongs to two
matches. -/
theorem c7_matches_token_disjoint (mw : MatchingWords) (tokens : List Token) :
    List.Pairwise (fun a b : Match =>
        a.lastTokenPos < b.firstTokenPos ∨ b.lastTokenPos < a.firstTokenPos)
      (get_matches mw tokens) := by
  unfold get_matches getMatchesLoop
  have h := (getMatchesAux_bounds (mkStream tokens 0 0).length mw (mkStream tokens 0 0) 0
    (mkStream_pairwise tokens 0 0) (fun x _ => Nat.zero_le _)).2
  have hp : List.Pairwise (fun a b : Match =>
      a.lastTokenPos < b.firstTokenPos ∨ b.lastTokenPos < a.firstTokenPos)
      (getMatchesAux mw (mkStream tokens 0 0).length (mkStream tokens 0 0)) :=
    h.imp fun hab => Or.inl hab
  exact ((List.perm_insertionSort _ _).pairwise_iff (fun hab => hab.symm)).mpr hp

end Milli
